import Mathlib

/-!
Verification of the mongo-mcp safe command execution pipeline.

Commands are modelled as lists of characters. The functions below are
shallow embeddings of the TypeScript sources:
SecurityValidator (src/src/utils/security.ts), MongoExecuteTool
(tools/execute.ts), SafeResponseHandler (utils/response-handler.ts),
and a connection pool modelled from the specification.
-/

namespace MongoMCP

/-- Convert a string literal to the working representation. -/
def str (s : String) : List Char := s.data

/-- Whitespace predicate modelling the JavaScript regex class backslash-s
on the characters that occur in commands. -/
def isWs (c : Char) : Bool :=
  c = ' ' || c = '\t' || c = '\n' || c = '\r' || c = '\x0b' || c = '\x0c'

/-- JavaScript String.prototype.trim. -/
def trimStr (l : List Char) : List Char :=
  ((l.dropWhile isWs).reverse.dropWhile isWs).reverse

/-- Case sensitive: does the second list start with the first one. -/
def startsWithCS : List Char → List Char → Bool
  | [], _ => true
  | _ :: _, [] => false
  | p :: ps, c :: cs => p = c && startsWithCS ps cs

/-- Case sensitive substring containment, JavaScript String.prototype.includes. -/
def containsSub (p : List Char) : List Char → Bool
  | [] => startsWithCS p []
  | c :: cs => startsWithCS p (c :: cs) || containsSub p cs

/-- Number of positions at which the pattern occurs (counting overlaps). -/
def countSub (p : List Char) : List Char → Nat
  | [] => if startsWithCS p [] then 1 else 0
  | c :: cs => (if startsWithCS p (c :: cs) then 1 else 0) + countSub p cs

/-- Index of the last occurrence of the pattern, if any
(JavaScript String.prototype.lastIndexOf for a nonempty pattern). -/
def lastIndexAux (p : List Char) : List Char → Option Nat
  | [] => if startsWithCS p [] then some 0 else none
  | c :: cs =>
    match lastIndexAux p cs with
    | some j => some (j + 1)
    | none => if startsWithCS p (c :: cs) then some 0 else none

/-- JavaScript String.prototype.lastIndexOf, -1 when absent. -/
def lastIndexOfSub (p s : List Char) : Int :=
  match lastIndexAux p s with
  | some k => (k : Int)
  | none => -1

/-- Case insensitive character comparison. -/
def eqCI (a b : Char) : Bool := a.toLower = b.toLower

/-- Strip a case-insensitive literal from the head of a list. -/
def stripLitCI : List Char → List Char → Option (List Char)
  | [], s => some s
  | _ :: _, [] => none
  | p :: ps, c :: cs => if eqCI p c then stripLitCI ps cs else none

/-- One token of a regular-expression pattern used by the validator:
a case-insensitive literal, optional whitespace, or mandatory whitespace. -/
inductive PTok where
  | lit (l : List Char)
  | ws0
  | ws1
deriving DecidableEq

/-- Match a token sequence at the head of a list.  The whitespace tokens
are greedy, which coincides with the regex semantics here because every
token that follows whitespace starts with a non-whitespace character. -/
def matchToks : List PTok → List Char → Bool
  | [], _ => true
  | PTok.lit l :: ts, s =>
    match stripLitCI l s with
    | some s2 => matchToks ts s2
    | none => false
  | PTok.ws0 :: ts, s => matchToks ts (s.dropWhile isWs)
  | PTok.ws1 :: ts, s =>
    match s with
    | [] => false
    | c :: cs => isWs c && matchToks ts (cs.dropWhile isWs)

/-- Does the pattern match anywhere in the list (unanchored regex test). -/
def containsPat (p : List PTok) : List Char → Bool
  | [] => matchToks p []
  | c :: cs => matchToks p (c :: cs) || containsPat p (cs)

/-- Error codes of MongoMCPError raised by the validator and the tools. -/
inductive MErr where
  | INVALID_COMMAND
  | EMPTY_COMMAND
  | DANGEROUS_PATTERN
  | MALFORMED_COMMAND
  | COMPLEX_COMMAND
  | WRITE_OPERATION_FORBIDDEN
  | ADMIN_OPERATION_FORBIDDEN
  | INVALID_COMMAND_SYNTAX
  | INVALID_ARGS
  | EXECUTION_ERROR
deriving DecidableEq

instance {ε α : Type} [DecidableEq ε] [DecidableEq α] :
    DecidableEq (Except ε α) := fun x y =>
  match x, y with
  | Except.error e, Except.error f =>
    if h : e = f then isTrue (by rw [h])
    else isFalse (by intro hh; injection hh; exact h (by assumption))
  | Except.error _, Except.ok _ => isFalse (by intro hh; injection hh)
  | Except.ok _, Except.error _ => isFalse (by intro hh; injection hh)
  | Except.ok a, Except.ok b =>
    if h : a = b then isTrue (by rw [h])
    else isFalse (by intro hh; injection hh; exact h (by assumption))

/-- The deny-list of injection signature patterns of
SecurityValidator.checkForInjectionPatterns (security.ts lines 106-119),
each one a case-insensitive regular expression. -/
def injectionPatterns : List (List PTok) :=
  [ [PTok.lit (str "eval"), PTok.ws0, PTok.lit (str "(")],
    [PTok.lit (str "function"), PTok.ws0, PTok.lit (str "(")],
    [PTok.lit (str "new"), PTok.ws1, PTok.lit (str "Function")],
    [PTok.lit (str "constructor")],
    [PTok.lit (str "prototype")],
    [PTok.lit (str "__proto__")],
    [PTok.lit (str "process.")],
    [PTok.lit (str "require"), PTok.ws0, PTok.lit (str "(")],
    [PTok.lit (str "import"), PTok.ws1],
    [PTok.lit (str "global.")],
    [PTok.lit (str "this.")],
    [PTok.lit (str "$where")] ]

/-- Does any injection signature match the command. -/
def anyInjection (c : List Char) : Bool :=
  injectionPatterns.any (fun p => containsPat p c)

/-- SecurityValidator.checkForInjectionPatterns: injection signatures are
tested first, then brace balance, then the brace-count ceiling. -/
def checkForInjectionPatterns (c : List Char) : Except MErr Unit :=
  if anyInjection c then Except.error MErr.DANGEROUS_PATTERN
  else if c.count '\x7b' ≠ c.count '\x7d' then Except.error MErr.MALFORMED_COMMAND
  else if 50 < c.count '\x7b' then Except.error MErr.COMPLEX_COMMAND
  else Except.ok ()

/-- DANGEROUS_OPERATIONS of security.ts lines 10-21. -/
def dangerousOperations : List (List Char) :=
  [str "drop", str "dropDatabase", str "deleteMany", str "replaceOne",
   str "updateMany", str "insertMany", str "createIndex", str "dropIndex",
   str "createCollection", str "renameCollection"]

/-- The method names of the four writePatterns alternation groups of
security.ts lines 158-163; each group raises the same error code. -/
def writeOpNames : List (List Char) :=
  [str "insert", str "insertOne", str "insertMany",
   str "update", str "updateOne", str "updateMany", str "replaceOne",
   str "delete", str "deleteOne", str "deleteMany", str "remove",
   str "save", str "upsert"]

/-- The regex dot name ws0 openparen used for every operation name. -/
def matchesDotCall (op : List Char) (c : List Char) : Bool :=
  containsPat [PTok.lit ('.' :: op), PTok.ws0, PTok.lit (str "(")] c

/-- Does the command match any disallowed mutating-method pattern. -/
def matchesWriteOp (c : List Char) : Bool :=
  dangerousOperations.any (fun op => matchesDotCall op c) ||
  writeOpNames.any (fun op => matchesDotCall op c)

/-- SecurityValidator.checkForWriteOperations. -/
def checkForWriteOperations (c : List Char) : Except MErr Unit :=
  if matchesWriteOp c then Except.error MErr.WRITE_OPERATION_FORBIDDEN
  else Except.ok ()

/-- ADMIN_COMMANDS of security.ts lines 24-34. -/
def adminCommands : List (List Char) :=
  [str "serverStatus", str "replSetGetStatus", str "isMaster",
   str "buildInfo", str "hostInfo", str "listCommands",
   str "getCmdLineOpts", str "getParameter", str "setParameter"]

/-- SecurityValidator.checkForAdminOperations. -/
def checkForAdminOperations (c : List Char) : Except MErr Unit :=
  if adminCommands.any (fun op => matchesDotCall op c) then
    Except.error MErr.ADMIN_OPERATION_FORBIDDEN
  else if containsPat [PTok.lit (str "db.admin()")] c ||
          containsPat [PTok.lit (str "db.runCommand")] c then
    Except.error MErr.ADMIN_OPERATION_FORBIDDEN
  else Except.ok ()

/-- Identifier start character of the case sensitive shape regex. -/
def isIdentStart (c : Char) : Bool :=
  ('a' ≤ c && c ≤ 'z') || ('A' ≤ c && c ≤ 'Z') || c = '_'

/-- Identifier character of the case sensitive shape regex. -/
def isIdentChar (c : Char) : Bool :=
  isIdentStart c || ('0' ≤ c && c ≤ '9')

/-- SecurityValidator.validateCommandSyntax: the command must start with
db. and match one of the three accepted call shapes (case sensitive). -/
def validateCommandSyntax (c : List Char) : Except MErr Unit :=
  if !startsWithCS (str "db.") c then Except.error MErr.INVALID_COMMAND_SYNTAX
  else
    let shape1 :=
      match c.drop 3 with
      | [] => false
      | x :: xs => isIdentStart x && (xs.dropWhile isIdentChar).head? = some '.'
    if shape1 || startsWithCS (str "db.getCollection(") c ||
       startsWithCS (str "db.collection(") c then Except.ok ()
    else Except.error MErr.INVALID_COMMAND_SYNTAX

/-- SecurityValidator.validateCommand (security.ts lines 39-68): empty
check, trim, injection screening, write screening when writes are not
allowed, admin screening when admin is not allowed, then the shape check;
returns the trimmed command on success. -/
def validateCommand (command : List Char) (allowWrites allowAdmin : Bool) :
    Except MErr (List Char) :=
  if command = [] then Except.error MErr.INVALID_COMMAND
  else
    let t := trimStr command
    if t = [] then Except.error MErr.EMPTY_COMMAND
    else
      match checkForInjectionPatterns t with
      | Except.error e => Except.error e
      | Except.ok _ =>
        match (if !allowWrites then checkForWriteOperations t else Except.ok ()) with
        | Except.error e => Except.error e
        | Except.ok _ =>
          match (if !allowAdmin then checkForAdminOperations t else Except.ok ()) with
          | Except.error e => Except.error e
          | Except.ok _ =>
            match validateCommandSyntax t with
            | Except.error e => Except.error e
            | Except.ok _ => Except.ok t

/-- Decimal digit character. -/
def digitCh (k : Nat) : Char := Char.ofNat (48 + k % 10)

/-- Decimal rendering of a natural number, as produced by a JavaScript
template literal; the fuel argument makes the recursion structural. -/
def natToCharsAux : Nat → Nat → List Char
  | 0, _ => []
  | fuel + 1, n =>
    if n < 10 then [digitCh n]
    else natToCharsAux fuel (n / 10) ++ [digitCh (n % 10)]

/-- Decimal rendering of a natural number. -/
def natToChars (n : Nat) : List Char := natToCharsAux (n + 1) n

/-- The injected clause limit open n close of
MongoExecuteTool.injectLimitIfNeeded. -/
def limitClause (n : Nat) : List Char :=
  str ".limit(" ++ natToChars n ++ str ")"

/-- The cursor method tokens checked by injectLimitIfNeeded. -/
def hasCursorTok (c : List Char) : Bool :=
  containsSub (str "find(") c || containsSub (str "aggregate(") c

/-- The conflicting chained methods that preclude limit injection. -/
def hasConflict (c : List Char) : Bool :=
  containsSub (str ".forEach(") c || containsSub (str ".map(") c ||
  containsSub (str ".explain(") c || containsSub (str ".count(") c

/-- Scan for the parenthesis closing a clause: called on the suffix that
follows the opening token, with the absolute index of that suffix and the
current nesting depth; returns the absolute index one past the
closing parenthesis (execute.ts lines 563-575). -/
def findCloseFrom : List Char → Nat → Nat → Option Nat
  | [], _, _ => none
  | c :: cs, i, d =>
    if c = '(' then findCloseFrom cs (i + 1) (d + 1)
    else if c = ')' then
      if d = 0 then some (i + 1) else findCloseFrom cs (i + 1) (d - 1)
    else findCloseFrom cs (i + 1) d

/-- The chainable clause tokens scanned for an injection point. -/
def terminatorToks : List (List Char) :=
  [str ".sort(", str ".skip(", str ".project(", str ".hint("]

/-- The scan of execute.ts lines 555-577: track the largest last-occurrence
index over the terminator tokens and, when found, the end of that clause;
when the closing parenthesis is missing the previous end is kept. -/
def scanStep (c : List Char) (acc : Int × Int) (t : List Char) : Int × Int :=
  let idx := lastIndexOfSub t c
  if acc.1 < idx then
    (idx,
     match findCloseFrom (c.drop (idx.toNat + t.length)) (idx.toNat + t.length) 0 with
     | some e => (e : Int)
     | none => acc.2)
  else acc

def terminatorScan (c : List Char) : Int × Int :=
  terminatorToks.foldl (scanStep c) (-1, -1)

/-- MongoExecuteTool.injectLimitIfNeeded (execute.ts lines 523-590). -/
def injectLimitIfNeeded (command : List Char) (maxResults : Nat) : List Char :=
  if !hasCursorTok command then command
  else if containsSub (str ".limit(") command then command
  else if hasConflict command then command
  else
    let tIdx := lastIndexOfSub (str ".toArray()") command
    if tIdx ≠ -1 then
      command.take tIdx.toNat ++ limitClause maxResults ++ command.drop tIdx.toNat
    else
      let e := (terminatorScan command).2
      if 0 < e then
        command.take e.toNat ++ limitClause maxResults ++ command.drop e.toNat
      else if command.getLast? = some ')' then command ++ limitClause maxResults
      else command

/-- MongoExecuteTool.needsToArrayConversion (execute.ts lines 480-498).
Note that count is not among the excluded chained methods here. -/
def needsToArrayConversion (c : List Char) : Bool :=
  (containsSub (str "find(") c || containsSub (str "aggregate(") c ||
   containsSub (str ".find(") c || containsSub (str ".aggregate(") c) &&
  !(containsSub (str ".toArray()") c) &&
  !(containsSub (str ".forEach(") c || containsSub (str ".map(") c ||
    containsSub (str ".explain()") c)

/-- The materialization wrapper open command close .toArray(). -/
def wrapToArray (c : List Char) : List Char :=
  '(' :: c ++ str ").toArray()"

/-- Prefix the canonical root accessor when missing. -/
def ensureDbDot (c : List Char) : List Char :=
  if startsWithCS (str "db.") c then c else str "db." ++ c

/-- The pure normalization pipeline of
MongoExecuteTool.executeJavaScriptCommand (execute.ts lines 372-395):
trim, ensure the db. root accessor, inject the limit unless the caller
asked for an unbounded export, and wrap cursor results with toArray. -/
def normalizeCommand (cmd : List Char) (maxResults : Nat) (unbounded : Bool) :
    List Char :=
  let e1 := ensureDbDot (trimStr cmd)
  let e2 := if unbounded then e1 else injectLimitIfNeeded e1 maxResults
  if needsToArrayConversion e2 then wrapToArray e2 else e2

/-- JSON-like payload values returned by the evaluator; numbers are
modelled by integers, which print identically in JSON. -/
inductive JVal where
  | null
  | bool (b : Bool)
  | num (i : Int)
  | jstr (s : List Char)
  | arr (xs : List JVal)
  | obj (fields : List (List Char × JVal))

/-- Decimal rendering of an integer. -/
def intToChars : Int → List Char
  | Int.ofNat n => natToChars n
  | Int.negSucc n => '-' :: natToChars (n + 1)

/-- Hexadecimal digit character. -/
def hexCh (k : Nat) : Char :=
  if k % 16 < 10 then Char.ofNat (48 + k % 16) else Char.ofNat (87 + k % 16)

/-- JSON string escaping as performed by JSON.stringify. -/
def jsonEscape : List Char → List Char
  | [] => []
  | c :: cs =>
    (if c = '"' then str "\\\""
     else if c = '\\' then str "\\\\"
     else if c = '\n' then str "\\n"
     else if c = '\t' then str "\\t"
     else if c = '\r' then str "\\r"
     else if c = '\x08' then str "\\b"
     else if c = '\x0c' then str "\\f"
     else if c.toNat < 32 then
       str "\\u00" ++ [hexCh (c.toNat / 16), hexCh c.toNat]
     else [c]) ++ jsonEscape cs

/-- Quoted JSON string. -/
def jsonQuote (s : List Char) : List Char :=
  '"' :: jsonEscape s ++ str "\""

/-- Indentation of JSON.stringify with indent two at nesting depth d. -/
def jIndent (d : Nat) : List Char := List.replicate (2 * d) ' '

mutual

/-- Pretty serialization, JSON.stringify with value null two, at depth d. -/
def stringifyAt : JVal → Nat → List Char
  | JVal.null, _ => str "null"
  | JVal.bool true, _ => str "true"
  | JVal.bool false, _ => str "false"
  | JVal.num i, _ => intToChars i
  | JVal.jstr s, _ => jsonQuote s
  | JVal.arr [], _ => str "[]"
  | JVal.arr (x :: xs), d =>
    str "[\n" ++ stringifyItems (x :: xs) (d + 1) ++ str "\n" ++
      jIndent d ++ str "]"
  | JVal.obj [], _ => str "\x7b\x7d"
  | JVal.obj (f :: fs), d =>
    str "\x7b\n" ++ stringifyFields (f :: fs) (d + 1) ++ str "\n" ++
      jIndent d ++ str "\x7d"

/-- Comma and newline separated array items, each on an indented line. -/
def stringifyItems : List JVal → Nat → List Char
  | [], _ => []
  | [x], d => jIndent d ++ stringifyAt x d
  | x :: y :: xs, d =>
    jIndent d ++ stringifyAt x d ++ str ",\n" ++ stringifyItems (y :: xs) d

/-- Comma and newline separated object fields. -/
def stringifyFields : List (List Char × JVal) → Nat → List Char
  | [], _ => []
  | [(k, v)], d => jIndent d ++ jsonQuote k ++ str ": " ++ stringifyAt v d
  | (k, v) :: g :: fs, d =>
    jIndent d ++ jsonQuote k ++ str ": " ++ stringifyAt v d ++ str ",\n" ++
      stringifyFields (g :: fs) d

end

/-- JSON.stringify with value null two at top level. -/
def stringify2 (v : JVal) : List Char := stringifyAt v 0

/-- UTF-8 byte length of the serialized text, the size reported by
fs.stat for a file written with encoding utf-8. -/
def utf8Len (l : List Char) : Nat := (l.map Char.utf8Size).sum

/-- UTF-16 code unit count, the JavaScript string length. -/
def utf16Len (l : List Char) : Nat :=
  (l.map (fun c => if c.toNat < 65536 then 1 else 2)).sum

/-- ResponseSizeConfig of response-handler.ts. -/
structure ResponseSizeConfig where
  maxSizeBytes : Nat
  warningSizeBytes : Nat
  maxDocuments : Nat
deriving DecidableEq

/-- The DEFAULT_CONFIG of response-handler.ts: ten MiB ceiling, five MiB
warning threshold, fifty documents. -/
def DEFAULT_CONFIG : ResponseSizeConfig :=
  { maxSizeBytes := 10 * 1024 * 1024,
    warningSizeBytes := 5 * 1024 * 1024,
    maxDocuments := 50 }

/-- Metadata of SafeResponseResult. -/
structure SafeMetadata where
  originalSize : Nat
  finalSize : Nat
  wasTruncated : Bool
  documentsShown : Option Nat
  totalDocuments : Option Nat
deriving DecidableEq

/-- SafeResponseResult of response-handler.ts. -/
structure SafeResponseResult where
  content : List Char
  metadata : SafeMetadata
deriving DecidableEq

/-- SafeResponseHandler.truncateData: arrays are cut to the first
maxItems elements, everything else is returned unchanged. -/
def truncateData (data : JVal) (maxItems : Nat) : JVal :=
  match data with
  | JVal.arr xs => JVal.arr (xs.take maxItems)
  | v => v

/-- The effective item bound: options.maxResults or config.maxDocuments,
where the JavaScript or-operator treats zero and absent alike. -/
def effectiveMax (cfg : ResponseSizeConfig) : Option Nat → Nat
  | none => cfg.maxDocuments
  | some 0 => cfg.maxDocuments
  | some (n + 1) => n + 1

/-- Whether the payload is an array. -/
def isArr : JVal → Bool
  | JVal.arr _ => true
  | _ => false

/-- Length of an array payload. -/
def arrLen : JVal → Nat
  | JVal.arr xs => xs.length
  | _ => 0

/-- SafeResponseHandler.handleResponse (response-handler.ts lines 58-148),
with the temporary file round trip elided: the file holds exactly the
serialized text, so its stat size is the UTF-8 byte length and reading it
back returns the same text.  The final size of a truncated response is
the JavaScript string length of the re-serialized text. -/
def handleResponse (cfg : ResponseSizeConfig) (data : JVal)
    (maxResultsOpt : Option Nat) : SafeResponseResult :=
  let maxResults := effectiveMax cfg maxResultsOpt
  let fullResponse := stringify2 data
  let fileSizeBytes := utf8Len fullResponse
  if cfg.maxSizeBytes < fileSizeBytes then
    let truncatedData := truncateData data maxResults
    let truncatedResponse := stringify2 truncatedData
    { content := truncatedResponse,
      metadata :=
        { originalSize := fileSizeBytes,
          finalSize := utf16Len truncatedResponse,
          wasTruncated := true,
          documentsShown :=
            if isArr truncatedData then some (arrLen truncatedData) else none,
          totalDocuments := if isArr data then some (arrLen data) else none } }
  else
    { content := fullResponse,
      metadata :=
        { originalSize := fileSizeBytes,
          finalSize := fileSizeBytes,
          wasTruncated := false,
          documentsShown := none,
          totalDocuments := none } }

/-- Modelled from the spec: the pooled connection manager that backs
MongoExecuteTool (the getClient and releaseConnection methods called from
tools/execute.ts) is not present under src, so the PooledHandle record of
section 3 is modelled from the specification: target key, client
reference (an identifier standing for the established session),
lastUsedAt timestamp, and the inUse flag. -/
structure PooledHandle where
  target : List Char
  clientId : Nat
  lastUsedAt : Nat
  inUse : Bool
deriving DecidableEq

/-- Modelled from the spec: the pool state of section 4.1 — the handle
table, the next fresh client identifier, and a counter of connection
establishments used to observe whether acquire opened a new session. -/
structure PoolState where
  handles : List PooledHandle
  nextClientId : Nat
  established : Nat
deriving DecidableEq

/-- Is the handle idle and bound to the given target. -/
def idleFor (t : List Char) (h : PooledHandle) : Bool :=
  h.target = t && !h.inUse

/-- Lease the handle with the given client id. -/
def markUsed (hs : List PooledHandle) (cid now : Nat) : List PooledHandle :=
  hs.map fun g =>
    if g.clientId = cid then { g with inUse := true, lastUsedAt := now } else g

/-- One step of the least-recently-used fold. -/
def lruStep (acc : Option PooledHandle) (g : PooledHandle) :
    Option PooledHandle :=
  match acc with
  | none => some g
  | some m => if g.lastUsedAt < m.lastUsedAt then some g else some m

/-- Least recently used idle handle across all targets. -/
def lruIdle (hs : List PooledHandle) : Option PooledHandle :=
  (hs.filter (fun g => !g.inUse)).foldl lruStep none

/-- Remove the handle with the given client id. -/
def removeHandle (hs : List PooledHandle) (cid : Nat) : List PooledHandle :=
  hs.eraseP (fun g => g.clientId = cid)

/-- Modelled from the spec: acquire of section 4.1.  Reuse an idle handle
for the target when one exists; otherwise create a fresh handle when the
pool is under its maximum size; otherwise evict the least recently used
idle handle (closing it) and create; when nothing is idle at capacity the
caller waits, modelled as no lease.  Returns the new state, the leased
client id, and the handles closed by this call. -/
def acquire (st : PoolState) (t : List Char) (now maxSize : Nat) :
    PoolState × Option Nat × List PooledHandle :=
  match st.handles.find? (idleFor t) with
  | some h =>
    ({ st with handles := markUsed st.handles h.clientId now },
     some h.clientId, [])
  | none =>
    if st.handles.length < maxSize then
      ({ handles := st.handles ++ [⟨t, st.nextClientId, now, true⟩],
         nextClientId := st.nextClientId + 1,
         established := st.established + 1 },
       some st.nextClientId, [])
    else
      match lruIdle st.handles with
      | some victim =>
        ({ handles := removeHandle st.handles victim.clientId ++
             [⟨t, st.nextClientId, now, true⟩],
           nextClientId := st.nextClientId + 1,
           established := st.established + 1 },
         some st.nextClientId, [victim])
      | none => (st, none, [])

/-- The release transform applied to one handle. -/
def releaseFn (cid now : Nat) (g : PooledHandle) : PooledHandle :=
  if g.clientId = cid then { g with inUse := false, lastUsedAt := now } else g

/-- Modelled from the spec: release returns the leased handle to the idle
set; it is idempotent and a no-op when the handle is absent. -/
def release (st : PoolState) (cid now : Nat) : PoolState :=
  { st with handles := st.handles.map (releaseFn cid now) }

/-- Modelled from the spec: the periodic idle sweep of section 4.1 closes
every idle handle whose inactivity exceeds the timeout; in-use handles
are never swept.  Returns the new state and the closed handles. -/
def sweepPool (st : PoolState) (now idleTimeout : Nat) :
    PoolState × List PooledHandle :=
  ({ st with
     handles := st.handles.filter
       (fun g => !(!g.inUse && g.lastUsedAt + idleTimeout < now)) },
   st.handles.filter (fun g => !g.inUse && g.lastUsedAt + idleTimeout < now))

/-- Observable pool events of one execution request. -/
inductive PoolEvent where
  | acquireEv (t : List Char)
  | releaseEv (t : List Char)
deriving DecidableEq

/-- Arguments of MongoExecuteTool.execute; absent or non-string values
are modelled as none. -/
structure ExecArgs where
  command : Option (List Char)
  connectionString : Option (List Char)
deriving DecidableEq

/-- MongoExecuteTool.execute (execute.ts lines 241-303) as a trace
function: the argument checks run before the try block, the body acquires
the pooled client, evaluates (the outcome of acquisition and of the
sandboxed evaluation are parameters, since they depend on the driver),
and the finally block releases the connection on every path.  Returns the
pool event trace and the outcome. -/
def executeModel (args : ExecArgs) (acq : Except MErr Unit)
    (evalr : Except MErr JVal) : List PoolEvent × Except MErr (List Char) :=
  match args.command with
  | none => ([], Except.error MErr.INVALID_ARGS)
  | some c =>
    if c = [] then ([], Except.error MErr.INVALID_ARGS)
    else
      match args.connectionString with
      | none => ([], Except.error MErr.INVALID_ARGS)
      | some cs =>
        if cs = [] then ([], Except.error MErr.INVALID_ARGS)
        else
          match acq with
          | Except.error e =>
            ([PoolEvent.acquireEv cs, PoolEvent.releaseEv cs], Except.error e)
          | Except.ok _ =>
            match evalr with
            | Except.error e =>
              ([PoolEvent.acquireEv cs, PoolEvent.releaseEv cs], Except.error e)
            | Except.ok v =>
              ([PoolEvent.acquireEv cs, PoolEvent.releaseEv cs],
               Except.ok (stringify2 v))

/-- Modelled from the spec: the control flow of section 2 — the validator
screens the raw command before the sandbox evaluator runs, so a rejected
command never reaches evaluation.  The wiring that invokes
SecurityValidator is not present under src (only the validator itself
is); the Bool records whether the evaluator was invoked. -/
def runPipeline (ev : List Char → JVal) (cmd : List Char)
    (allowWrites allowAdmin : Bool) : Except MErr JVal × Bool :=
  match validateCommand cmd allowWrites allowAdmin with
  | Except.error e => (Except.error e, false)
  | Except.ok t => (Except.ok (ev t), true)

/-! Supporting lemmas about the string primitives. -/

theorem startsWithCS_nil_left (s : List Char) : startsWithCS [] s = true := rfl

theorem startsWithCS_self_append (p t : List Char) :
    startsWithCS p (p ++ t) = true := by
  induction p with
  | nil => rfl
  | cons c cs ih => simp [startsWithCS, ih]

theorem startsWithCS_append (p w t : List Char) :
    startsWithCS p (w ++ t) =
      (startsWithCS (p.take w.length) w && startsWithCS (p.drop w.length) t) := by
  induction w generalizing p with
  | nil => simp [startsWithCS]
  | cons c w2 ih =>
    cases p with
    | nil => simp [startsWithCS]
    | cons d p2 =>
      simp only [List.cons_append, startsWithCS, List.length_cons,
        List.take_succ_cons, List.drop_succ_cons, List.append_eq, ih,
        Bool.and_assoc]

theorem containsSub_of_startsWithCS (p s : List Char)
    (h : startsWithCS p s = true) : containsSub p s = true := by
  cases s with
  | nil => exact h
  | cons c cs => simp [containsSub, h]

theorem containsSub_mid (p a t : List Char) :
    containsSub p (a ++ (p ++ t)) = true := by
  induction a with
  | nil =>
    exact containsSub_of_startsWithCS p (p ++ t) (startsWithCS_self_append p t)
  | cons c a2 ih => simp [containsSub, List.append_eq, ih]

theorem countSub_cons (p : List Char) (c : Char) (cs : List Char) :
    countSub p (c :: cs) =
      (if startsWithCS p (c :: cs) = true then 1 else 0) + countSub p cs := rfl

theorem countSub_eq_zero_of_not_contains (p : List Char) :
    ∀ s : List Char, containsSub p s = false → countSub p s = 0 := by
  intro s
  induction s with
  | nil => intro h; simp [containsSub] at h; simp [countSub, h]
  | cons c cs ih =>
    intro h
    simp only [containsSub, Bool.or_eq_false_iff] at h
    rw [countSub_cons, h.1]
    simp [ih h.2]

theorem countSub_headmem_ne (p : List Char) (d : Char) (hd : p.head? = some d) :
    ∀ z b : List Char, (∀ c ∈ z, c ≠ d) →
      countSub p (z ++ b) = countSub p b := by
  intro z
  induction z with
  | nil => intro b _; rfl
  | cons c z2 ih =>
    intro b hz
    have hc : d ≠ c := Ne.symm (hz c (List.mem_cons_self c z2))
    obtain ⟨ps, rfl⟩ : ∃ ps, p = d :: ps := by
      cases p with
      | nil => cases hd
      | cons x xs =>
        refine ⟨xs, ?_⟩
        injection hd with h
        rw [h]
    have hsw : startsWithCS (d :: ps) (c :: (z2 ++ b)) = false := by
      simp [startsWithCS, hc]
    have hstep : (c :: z2) ++ b = c :: (z2 ++ b) := rfl
    rw [hstep, countSub_cons, hsw]
    simp [ih b (fun x hx => hz x (List.mem_cons_of_mem c hx))]

theorem natToCharsAux_ne_dot : ∀ (fuel n : Nat) (c : Char),
    c ∈ natToCharsAux fuel n → c ≠ '.' := by
  have hd : ∀ k : Nat, digitCh k ≠ '.' := by
    intro k
    have h10 : k % 10 < 10 := Nat.mod_lt _ (by decide)
    have hall : ∀ m, m < 10 → Char.ofNat (48 + m) ≠ '.' := by decide
    exact hall (k % 10) h10
  intro fuel
  induction fuel with
  | zero => intro n c h; cases h
  | succ f ih =>
    intro n c h
    unfold natToCharsAux at h
    by_cases h10 : n < 10
    · rw [if_pos h10] at h
      rcases List.mem_singleton.mp h with rfl
      exact hd n
    · rw [if_neg h10] at h
      rcases List.mem_append.mp h with h1 | h2
      · exact ih _ _ h1
      · rcases List.mem_singleton.mp h2 with rfl
        exact hd _

theorem natToChars_ne_dot (n : Nat) (c : Char) (h : c ∈ natToChars n) :
    c ≠ '.' := natToCharsAux_ne_dot (n + 1) n c h

theorem sw_length_le (p : List Char) :
    ∀ s : List Char, startsWithCS p s = true → p.length ≤ s.length := by
  induction p with
  | nil => intro s _; simp
  | cons c p2 ih =>
    intro s h
    cases s with
    | nil => exact absurd h (by simp [startsWithCS])
    | cons e s2 =>
      simp only [startsWithCS, Bool.and_eq_true] at h
      simpa using ih s2 h.2

/-- No nonempty proper suffix of the limit token is one of its prefixes. -/
theorem limitTok_border_free :
    ∀ k, k < 7 → 0 < k →
      startsWithCS ((str ".limit(").drop k) (str ".limit(") = false := by decide

/-- Characters of the limit clause after its leading dot. -/
theorem limitClause_tail_ne_dot (n : Nat) :
    ∀ c ∈ str "limit(" ++ (natToChars n ++ str ")"), c ≠ '.' := by
  have hlit : ∀ x ∈ str "limit(", x ≠ '.' := by decide
  have hrp : ∀ x ∈ str ")", x ≠ '.' := by decide
  intro c hc
  rcases List.mem_append.mp hc with h1 | h2
  · exact hlit c h1
  · rcases List.mem_append.mp h2 with h3 | h4
    · exact natToChars_ne_dot n c h3
    · exact hrp c h4

/-- One limit clause prepended to a limit-free text gives exactly one
occurrence of the limit token. -/
theorem countSub_limit_block (n : Nat) (b : List Char)
    (hb : countSub (str ".limit(") b = 0) :
    countSub (str ".limit(") (limitClause n ++ b) = 1 := by
  show countSub (str ".limit(")
    ('.' :: (str "limit(" ++ ((natToChars n ++ str ")") ++ b))) = 1
  rw [countSub_cons]
  have hsw : startsWithCS (str ".limit(")
      ('.' :: (str "limit(" ++ ((natToChars n ++ str ")") ++ b))) = true :=
    startsWithCS_self_append (str ".limit(") ((natToChars n ++ str ")") ++ b)
  rw [hsw]
  have hassoc : str "limit(" ++ ((natToChars n ++ str ")") ++ b) =
      (str "limit(" ++ (natToChars n ++ str ")")) ++ b :=
    (List.append_assoc _ _ _).symm
  rw [hassoc,
    countSub_headmem_ne (str ".limit(") '.' rfl
      (str "limit(" ++ (natToChars n ++ str ")")) b (limitClause_tail_ne_dot n),
    hb]
  simp

/-- Inserting the limit clause into a text with no limit token yields a
text with exactly one occurrence of the limit token. -/
theorem countSub_insert_limit (n : Nat) : ∀ a b : List Char,
    containsSub (str ".limit(") (a ++ b) = false →
    countSub (str ".limit(") (a ++ (limitClause n ++ b)) = 1 := by
  intro a
  induction a with
  | nil =>
    intro b h
    rw [List.nil_append] at h ⊢
    exact countSub_limit_block n b (countSub_eq_zero_of_not_contains _ _ h)
  | cons c a2 ih =>
    intro b h
    simp only [containsSub, Bool.or_eq_false_iff] at h
    have ih2 := ih b h.2
    have hwb : startsWithCS (str ".limit(") ((c :: a2) ++ b) = false := h.1
    have hsw : startsWithCS (str ".limit(") ((c :: a2) ++ (limitClause n ++ b)) =
        false := by
      rw [startsWithCS_append]
      rcases hA : startsWithCS ((str ".limit(").take (c :: a2).length)
          (c :: a2) with _ | _
      · simp
      · by_cases h7 : 7 ≤ (c :: a2).length
        · exfalso
          have hdrop : (str ".limit(").drop (c :: a2).length = [] := by
            apply List.drop_of_length_le
            have h7eq : (str ".limit(").length = 7 := rfl
            omega
          rw [startsWithCS_append, hA, hdrop] at hwb
          simp [startsWithCS] at hwb
        · rcases hB : startsWithCS ((str ".limit(").drop (c :: a2).length)
              (limitClause n ++ b) with _ | _
          · simp
          · exfalso
            have hexp : limitClause n ++ b =
                str ".limit(" ++ ((natToChars n ++ str ")") ++ b) := by
              simp [limitClause]
            rw [hexp, startsWithCS_append] at hB
            have hlen : ((str ".limit(").drop (c :: a2).length).length ≤
                (str ".limit(").length := by
              rw [List.length_drop]
              omega
            rw [List.take_of_length_le hlen] at hB
            have hk7 : (c :: a2).length < 7 := Nat.lt_of_not_le h7
            rw [limitTok_border_free (c :: a2).length hk7 (by simp)] at hB
            simp at hB
    have hstep : (c :: a2) ++ (limitClause n ++ b) =
        c :: (a2 ++ (limitClause n ++ b)) := rfl
    have hsw2 : startsWithCS (str ".limit(")
        (c :: (a2 ++ (limitClause n ++ b))) = false := hstep ▸ hsw
    rw [hstep, countSub_cons, hsw2]
    simp [ih2]

theorem lastIndexAux_nil_of_ne (p : List Char) (hp : p ≠ []) :
    lastIndexAux p [] = none := by
  cases p with
  | nil => exact absurd rfl hp
  | cons c cs => rfl

theorem lastIndexAux_some_sw (p : List Char) :
    ∀ (s : List Char) (k : Nat), lastIndexAux p s = some k →
      startsWithCS p (s.drop k) = true := by
  intro s
  induction s with
  | nil =>
    intro k h
    rw [lastIndexAux] at h
    rcases hsw : startsWithCS p [] with _ | _
    · rw [hsw] at h; simp at h
    · rw [hsw] at h
      simp only [if_true] at h
      injection h with h2
      rw [← h2, List.drop_nil]
      exact hsw
  | cons c cs ih =>
    intro k h
    rw [lastIndexAux] at h
    cases hrec : lastIndexAux p cs with
    | some j =>
      rw [hrec] at h
      simp only [] at h
      injection h with h2
      rw [← h2, List.drop_succ_cons]
      exact ih j hrec
    | none =>
      rw [hrec] at h
      rcases hsw : startsWithCS p (c :: cs) with _ | _
      · rw [hsw] at h; simp at h
      · rw [hsw] at h
        simp only [if_true] at h
        injection h with h2
        rw [← h2]
        exact hsw

theorem lastIndexAux_none_sw (p : List Char) (hp : p ≠ []) :
    ∀ s : List Char, lastIndexAux p s = none →
      ∀ i, startsWithCS p (s.drop i) = false := by
  intro s
  induction s with
  | nil =>
    intro _ i
    rw [List.drop_nil]
    cases p with
    | nil => exact absurd rfl hp
    | cons a as => rfl
  | cons c cs ih =>
    intro h i
    have hdec : lastIndexAux p cs = none ∧ startsWithCS p (c :: cs) = false := by
      rw [lastIndexAux] at h
      cases hrec : lastIndexAux p cs with
      | some j => rw [hrec] at h; simp at h
      | none =>
        rw [hrec] at h
        rcases hsw : startsWithCS p (c :: cs) with _ | _
        · exact ⟨rfl, rfl⟩
        · rw [hsw] at h; simp at h
    cases i with
    | zero => exact hdec.2
    | succ i2 => rw [List.drop_succ_cons]; exact ih hdec.1 i2

theorem lastIndexAux_some_max (p : List Char) (hp : p ≠ []) :
    ∀ (s : List Char) (k : Nat), lastIndexAux p s = some k →
      ∀ j, k < j → startsWithCS p (s.drop j) = false := by
  intro s
  induction s with
  | nil =>
    intro k h
    rw [lastIndexAux_nil_of_ne p hp] at h
    cases h
  | cons c cs ih =>
    intro k h j hj
    rw [lastIndexAux] at h
    cases hrec : lastIndexAux p cs with
    | some j0 =>
      rw [hrec] at h
      simp only [] at h
      injection h with h2
      obtain ⟨j2, rfl⟩ : ∃ j2, j = j2 + 1 := ⟨j - 1, by omega⟩
      rw [List.drop_succ_cons]
      exact ih j0 hrec j2 (by omega)
    | none =>
      rw [hrec] at h
      obtain ⟨j2, rfl⟩ : ∃ j2, j = j2 + 1 := ⟨j - 1, by omega⟩
      rw [List.drop_succ_cons]
      exact lastIndexAux_none_sw p hp cs hrec j2

theorem lastIndexAux_some_le (p : List Char) :
    ∀ (s : List Char) (k : Nat), lastIndexAux p s = some k → k ≤ s.length := by
  intro s
  induction s with
  | nil =>
    intro k h
    rw [lastIndexAux] at h
    rcases hsw : startsWithCS p [] with _ | _
    · rw [hsw] at h; simp at h
    · rw [hsw] at h
      simp only [if_true] at h
      injection h with h2
      omega
  | cons c cs ih =>
    intro k h
    rw [lastIndexAux] at h
    cases hrec : lastIndexAux p cs with
    | some j =>
      rw [hrec] at h
      simp only [] at h
      injection h with h2
      have := ih j hrec
      simp only [List.length_cons]
      omega
    | none =>
      rw [hrec] at h
      rcases hsw : startsWithCS p (c :: cs) with _ | _
      · rw [hsw] at h; simp at h
      · rw [hsw] at h
        simp only [if_true] at h
        injection h with h2
        omega

theorem containsSub_false_lastIndexAux (p : List Char) (hp : p ≠ []) :
    ∀ s : List Char, containsSub p s = false → lastIndexAux p s = none := by
  intro s
  induction s with
  | nil => intro _; exact lastIndexAux_nil_of_ne p hp
  | cons c cs ih =>
    intro h
    simp only [containsSub, Bool.or_eq_false_iff] at h
    rw [lastIndexAux, ih h.2, h.1]
    rfl

theorem containsSub_true_lastIndexAux (p : List Char) :
    ∀ s : List Char, containsSub p s = true →
      ∃ k, lastIndexAux p s = some k := by
  intro s
  induction s with
  | nil =>
    intro h
    refine ⟨0, ?_⟩
    rw [lastIndexAux]
    rw [show containsSub p [] = startsWithCS p [] from rfl] at h
    rw [h]
    simp
  | cons c cs ih =>
    intro h
    cases hrec : lastIndexAux p cs with
    | some j => exact ⟨j + 1, by rw [lastIndexAux, hrec]⟩
    | none =>
      simp only [containsSub, Bool.or_eq_true] at h
      rcases h with h1 | h2
      · exact ⟨0, by rw [lastIndexAux, hrec, h1]; simp⟩
      · obtain ⟨k, hk⟩ := ih h2
        rw [hk] at hrec
        cases hrec

theorem findCloseFrom_spec : ∀ (l : List Char) (i d e : Nat),
    findCloseFrom l i d = some e →
    i < e ∧ e ≤ i + l.length ∧ (l.drop (e - 1 - i)).head? = some ')' := by
  intro l
  induction l with
  | nil => intro i d e h; cases h
  | cons c cs ih =>
    intro i d e h
    rw [findCloseFrom] at h
    by_cases hc : c = '('
    · rw [if_pos hc] at h
      obtain ⟨h1, h2, h3⟩ := ih (i + 1) (d + 1) e h
      refine ⟨by omega, by simp only [List.length_cons]; omega, ?_⟩
      have harith : e - 1 - i = (e - 1 - (i + 1)) + 1 := by omega
      rw [harith, List.drop_succ_cons]
      exact h3
    · rw [if_neg hc] at h
      by_cases hc2 : c = ')'
      · rw [if_pos hc2] at h
        by_cases hd : d = 0
        · rw [if_pos hd] at h
          injection h with h2
          refine ⟨by omega, by simp only [List.length_cons]; omega, ?_⟩
          have : e - 1 - i = 0 := by omega
          rw [this, List.drop_zero, ← hc2]
          rfl
        · rw [if_neg hd] at h
          obtain ⟨h1, h2, h3⟩ := ih (i + 1) (d - 1) e h
          refine ⟨by omega, by simp only [List.length_cons]; omega, ?_⟩
          have harith : e - 1 - i = (e - 1 - (i + 1)) + 1 := by omega
          rw [harith, List.drop_succ_cons]
          exact h3
      · rw [if_neg hc2] at h
        obtain ⟨h1, h2, h3⟩ := ih (i + 1) d e h
        refine ⟨by omega, by simp only [List.length_cons]; omega, ?_⟩
        have harith : e - 1 - i = (e - 1 - (i + 1)) + 1 := by omega
        rw [harith, List.drop_succ_cons]
        exact h3

/-- A positive clause end produced by the terminator scan: it came from
some findCloseFrom call on a suffix of the command. -/
def GoodE (cmd : List Char) (e : Int) : Prop :=
  ∃ (s0 : Nat) (eN : Nat), e = (eN : Int) ∧
    findCloseFrom (cmd.drop s0) s0 0 = some eN

theorem scanStep_good (cmd : List Char) (acc : Int × Int) (t : List Char)
    (hacc : 0 < acc.2 → GoodE cmd acc.2) :
    0 < (scanStep cmd acc t).2 → GoodE cmd (scanStep cmd acc t).2 := by
  unfold scanStep
  by_cases hlt : acc.1 < lastIndexOfSub t cmd
  · rw [if_pos hlt]
    cases hfc : findCloseFrom
        (cmd.drop ((lastIndexOfSub t cmd).toNat + t.length))
        ((lastIndexOfSub t cmd).toNat + t.length) 0 with
    | some e2 =>
      intro _
      exact ⟨(lastIndexOfSub t cmd).toNat + t.length, e2, rfl, hfc⟩
    | none => exact hacc
  · rw [if_neg hlt]
    exact hacc

theorem foldl_scanStep_good (cmd : List Char) :
    ∀ (ts : List (List Char)) (acc : Int × Int),
      (0 < acc.2 → GoodE cmd acc.2) →
      0 < (ts.foldl (scanStep cmd) acc).2 →
      GoodE cmd (ts.foldl (scanStep cmd) acc).2 := by
  intro ts
  induction ts with
  | nil => intro acc hacc; exact hacc
  | cons t ts2 ih =>
    intro acc hacc
    exact ih (scanStep cmd acc t) (scanStep_good cmd acc t hacc)

theorem terminatorScan_good (cmd : List Char)
    (h : 0 < (terminatorScan cmd).2) : GoodE cmd (terminatorScan cmd).2 := by
  unfold terminatorScan
  exact foldl_scanStep_good cmd terminatorToks (-1, -1) (by intro h2; cases h2) h

theorem goodE_facts (cmd : List Char) (e : Int) (hg : GoodE cmd e) :
    ∃ eN : Nat, e = (eN : Int) ∧ 0 < eN ∧ eN ≤ cmd.length ∧
      (cmd.drop (eN - 1)).head? = some ')' := by
  obtain ⟨s0, eN, rfl, hfc⟩ := hg
  obtain ⟨h1, h2, h3⟩ := findCloseFrom_spec (cmd.drop s0) s0 0 eN hfc
  have hs0 : s0 ≤ cmd.length := by
    by_contra hcon
    have hnil : cmd.drop s0 = [] := List.drop_of_length_le (by omega)
    rw [hnil] at hfc
    cases hfc
  have hlen : (cmd.drop s0).length = cmd.length - s0 := List.length_drop s0 cmd
  refine ⟨eN, rfl, by omega, by omega, ?_⟩
  rw [List.drop_drop] at h3
  have harith : s0 + (eN - 1 - s0) = eN - 1 := by omega
  rw [harith] at h3
  exact h3

/-- Branch analysis of injectLimitIfNeeded: every run either returns the
command unchanged (for every limit value), or the command is limit-free
and the result inserts the limit clause at one position determined by
the command alone. -/
theorem injectLimit_cases (cmd : List Char) :
    (∀ m, injectLimitIfNeeded cmd m = cmd) ∨
    (containsSub (str ".limit(") cmd = false ∧
     ∃ k, k ≤ cmd.length ∧ ∀ m, injectLimitIfNeeded cmd m =
        cmd.take k ++ (limitClause m ++ cmd.drop k)) := by
  by_cases h1 : hasCursorTok cmd
  · by_cases h2 : containsSub (str ".limit(") cmd
    · left; intro m; simp [injectLimitIfNeeded, h1, h2]
    · by_cases h3 : hasConflict cmd
      · left; intro m; simp [injectLimitIfNeeded, h1, h2, h3]
      · cases hli : lastIndexAux (str ".toArray()") cmd with
        | some k =>
          right
          refine ⟨eq_false_of_ne_true h2, k,
            lastIndexAux_some_le _ _ _ hli, fun m => ?_⟩
          have htIdx : lastIndexOfSub (str ".toArray()") cmd = (k : Int) := by
            unfold lastIndexOfSub; rw [hli]
          have hne : ((k : Int) ≠ -1) := by omega
          simp [injectLimitIfNeeded, h1, h2, h3, htIdx, hne]
        | none =>
          have htIdx : lastIndexOfSub (str ".toArray()") cmd = -1 := by
            unfold lastIndexOfSub; rw [hli]
          by_cases he : 0 < (terminatorScan cmd).2
          · obtain ⟨eN, heq, hpos, hle, hch⟩ :=
              goodE_facts cmd _ (terminatorScan_good cmd he)
            right
            refine ⟨eq_false_of_ne_true h2, eN, hle, fun m => ?_⟩
            simp [injectLimitIfNeeded, h1, h2, h3, htIdx, he, heq, hpos]
          · by_cases hep : cmd.getLast? = some ')'
            · right
              refine ⟨eq_false_of_ne_true h2, cmd.length, le_refl _, fun m => ?_⟩
              simp [injectLimitIfNeeded, h1, h2, h3, htIdx, he, hep]
            · left; intro m
              simp [injectLimitIfNeeded, h1, h2, h3, htIdx, he, hep]
  · left; intro m; simp [injectLimitIfNeeded, h1]

/-! Theorems. -/

/-- C9: limit injection is total and never rejects — every outcome is the
input unchanged or the input with one inserted limit clause — and when a
cursor method is present but no safe insertion point exists (no toArray,
no clause boundary found, and the command does not end with a closing
parenthesis) the command is returned unmodified: fail-open on injection,
not on validity. -/
theorem injectLimit_total_fail_open (cmd : List Char) (n : Nat) :
    (injectLimitIfNeeded cmd n = cmd ∨
      ∃ k, k ≤ cmd.length ∧
        injectLimitIfNeeded cmd n =
          cmd.take k ++ (limitClause n ++ cmd.drop k)) ∧
    (hasCursorTok cmd = true →
      containsSub (str ".limit(") cmd = false →
      hasConflict cmd = false →
      containsSub (str ".toArray()") cmd = false →
      (terminatorScan cmd).2 ≤ 0 →
      cmd.getLast? ≠ some ')' →
      injectLimitIfNeeded cmd n = cmd) := by
  constructor
  · rcases injectLimit_cases cmd with h | ⟨_, k, hk, h⟩
    · exact Or.inl (h n)
    · exact Or.inr ⟨k, hk, h n⟩
  · intro h1 h2 h3 h4 h5 h6
    have htIdx : lastIndexOfSub (str ".toArray()") cmd = -1 := by
      unfold lastIndexOfSub
      rw [containsSub_false_lastIndexAux (str ".toArray()") (by decide) cmd h4]
    have he : ¬ 0 < (terminatorScan cmd).2 := by omega
    simp [injectLimitIfNeeded, h1, h2, h3, htIdx, he, h6]

/-- Witness for C9: a cursor command with no safe insertion point is
returned unchanged. -/
theorem injectLimit_total_fail_open_witness :
    injectLimitIfNeeded (str "db.users.find(\x7b\x7d).x") 100 =
      str "db.users.find(\x7b\x7d).x" :=
  (injectLimit_total_fail_open (str "db.users.find(\x7b\x7d).x") 100).2
    (by decide) (by decide) (by decide) (by decide) (by decide) (by decide)

/-- C8: a command already containing a limit clause is returned unchanged
by limit injection, and limit injection is idempotent — injecting again
into an already injected command, with any limit values, changes
nothing. -/
theorem injectLimit_identity_and_idempotent (cmd : List Char) (n m : Nat) :
    (containsSub (str ".limit(") cmd = true →
      injectLimitIfNeeded cmd n = cmd) ∧
    injectLimitIfNeeded (injectLimitIfNeeded cmd n) m =
      injectLimitIfNeeded cmd n := by
  constructor
  · intro h
    by_cases h1 : hasCursorTok cmd
    · simp [injectLimitIfNeeded, h1, h]
    · simp [injectLimitIfNeeded, h1]
  · rcases injectLimit_cases cmd with h | ⟨hnl, k, hk, h⟩
    · rw [h n]; exact h m
    · rw [h n]
      have hcont : containsSub (str ".limit(")
          (cmd.take k ++ (limitClause n ++ cmd.drop k)) = true := by
        have h0 := containsSub_mid (str ".limit(") (cmd.take k)
          ((natToChars n ++ str ")") ++ cmd.drop k)
        simpa [limitClause, List.append_assoc] using h0
      by_cases hC : hasCursorTok (cmd.take k ++ (limitClause n ++ cmd.drop k))
      · simp [injectLimitIfNeeded, hC, hcont]
      · simp [injectLimitIfNeeded, hC]

/-- Witness for C8: a command with an explicit limit is untouched. -/
theorem injectLimit_identity_and_idempotent_witness :
    injectLimitIfNeeded
        (str "db.products.find(\x7b\x7d).sort(\x7bname: 1\x7d).limit(5)") 100 =
      str "db.products.find(\x7b\x7d).sort(\x7bname: 1\x7d).limit(5)" :=
  (injectLimit_identity_and_idempotent
    (str "db.products.find(\x7b\x7d).sort(\x7bname: 1\x7d).limit(5)") 100 7).1
    (by decide)

/-- C2: for a command with a cursor call, no pre-existing limit clause
and no conflicting terminal method, the normalized command contains
exactly one injected limit clause: immediately before the trailing (last)
toArray call when present; otherwise right after the closing parenthesis
of the clause found by the terminator scan over sort, skip, project and
hint; otherwise appended at the end when the command ends with a closing
parenthesis. -/
theorem injectLimit_position_spec (cmd : List Char) (n : Nat)
    (h1 : hasCursorTok cmd = true)
    (h2 : containsSub (str ".limit(") cmd = false)
    (h3 : hasConflict cmd = false) :
    (containsSub (str ".toArray()") cmd = true →
      ∃ k, lastIndexAux (str ".toArray()") cmd = some k ∧
        startsWithCS (str ".toArray()") (cmd.drop k) = true ∧
        (∀ j, k < j → startsWithCS (str ".toArray()") (cmd.drop j) = false) ∧
        injectLimitIfNeeded cmd n =
          cmd.take k ++ (limitClause n ++ cmd.drop k) ∧
        countSub (str ".limit(") (injectLimitIfNeeded cmd n) = 1) ∧
    (containsSub (str ".toArray()") cmd = false →
      0 < (terminatorScan cmd).2 →
      ∃ k : Nat, (k : Int) = (terminatorScan cmd).2 ∧
        (cmd.drop (k - 1)).head? = some ')' ∧
        injectLimitIfNeeded cmd n =
          cmd.take k ++ (limitClause n ++ cmd.drop k) ∧
        countSub (str ".limit(") (injectLimitIfNeeded cmd n) = 1) ∧
    (containsSub (str ".toArray()") cmd = false →
      (terminatorScan cmd).2 ≤ 0 →
      cmd.getLast? = some ')' →
      injectLimitIfNeeded cmd n = cmd ++ limitClause n ∧
      countSub (str ".limit(") (injectLimitIfNeeded cmd n) = 1) := by
  refine ⟨?_, ?_, ?_⟩
  · intro hta
    obtain ⟨k, hli⟩ := containsSub_true_lastIndexAux (str ".toArray()") cmd hta
    have htIdx : lastIndexOfSub (str ".toArray()") cmd = (k : Int) := by
      unfold lastIndexOfSub; rw [hli]
    have hne : ((k : Int) ≠ -1) := by omega
    have hres : injectLimitIfNeeded cmd n =
        cmd.take k ++ (limitClause n ++ cmd.drop k) := by
      simp [injectLimitIfNeeded, h1, h2, h3, htIdx, hne]
    refine ⟨k, hli, lastIndexAux_some_sw _ _ _ hli,
      lastIndexAux_some_max _ (by decide) _ _ hli, hres, ?_⟩
    rw [hres]
    exact countSub_insert_limit n (cmd.take k) (cmd.drop k)
      (by rw [List.take_append_drop]; exact h2)
  · intro hta he
    obtain ⟨eN, heq, hpos, hle, hch⟩ :=
      goodE_facts cmd _ (terminatorScan_good cmd he)
    have htIdx : lastIndexOfSub (str ".toArray()") cmd = -1 := by
      unfold lastIndexOfSub
      rw [containsSub_false_lastIndexAux (str ".toArray()") (by decide) cmd hta]
    have hres : injectLimitIfNeeded cmd n =
        cmd.take eN ++ (limitClause n ++ cmd.drop eN) := by
      simp [injectLimitIfNeeded, h1, h2, h3, htIdx, he, heq, hpos]
    refine ⟨eN, heq.symm, hch, hres, ?_⟩
    rw [hres]
    exact countSub_insert_limit n (cmd.take eN) (cmd.drop eN)
      (by rw [List.take_append_drop]; exact h2)
  · intro hta he hep
    have htIdx : lastIndexOfSub (str ".toArray()") cmd = -1 := by
      unfold lastIndexOfSub
      rw [containsSub_false_lastIndexAux (str ".toArray()") (by decide) cmd hta]
    have he2 : ¬ 0 < (terminatorScan cmd).2 := by omega
    have hres : injectLimitIfNeeded cmd n = cmd ++ limitClause n := by
      simp [injectLimitIfNeeded, h1, h2, h3, htIdx, he2, hep]
    refine ⟨hres, ?_⟩
    rw [hres]
    have := countSub_insert_limit n cmd []
      (by rw [List.append_nil]; exact h2)
    simpa using this

/-- Witness for C2: exactly one limit clause is injected, before the
trailing toArray call. -/
theorem injectLimit_position_spec_witness :
    injectLimitIfNeeded (str "db.u.find(\x7b\x7d).toArray()") 5 =
      str "db.u.find(\x7b\x7d).limit(5).toArray()" ∧
    countSub (str ".limit(")
      (injectLimitIfNeeded (str "db.u.find(\x7b\x7d).toArray()") 5) = 1 := by
  have h := (injectLimit_position_spec (str "db.u.find(\x7b\x7d).toArray()") 5
    (by decide) (by decide) (by decide)).1 (by decide)
  obtain ⟨k, hli, _, _, hres, hcount⟩ := h
  have hk : k = 13 := by
    have : lastIndexAux (str ".toArray()") (str "db.u.find(\x7b\x7d).toArray()") =
        some 13 := by decide
    rw [this] at hli
    injection hli with h2
    omega
  subst hk
  rw [hres] at hcount ⊢
  exact ⟨by decide, hcount⟩

/-- C6: for every execution request that passes the argument checks and
reaches connection acquisition, the connection is released back to the
pool after the attempt, on every path — successful evaluation, any error
thrown inside the try block (validation or evaluation failure), and
failed acquisition alike — and the release follows the acquire of the
same request. -/
theorem execute_releases_on_every_path (args : ExecArgs)
    (acq : Except MErr Unit) (evalr : Except MErr JVal) (c cs : List Char)
    (hc : args.command = some c) (hc0 : c ≠ [])
    (hcs : args.connectionString = some cs) (hcs0 : cs ≠ []) :
    (executeModel args acq evalr).1 =
      [PoolEvent.acquireEv cs, PoolEvent.releaseEv cs] := by
  cases acq with
  | error e => simp [executeModel, hc, hcs, hc0, hcs0]
  | ok u =>
    cases evalr with
    | error e => simp [executeModel, hc, hcs, hc0, hcs0]
    | ok v => simp [executeModel, hc, hcs, hc0, hcs0]

/-- Witness for C6 at a concrete request. -/
theorem execute_releases_on_every_path_witness :
    (executeModel ⟨some (str "db.users.find()"), some (str "mongodb://h/db")⟩
        (Except.ok ()) (Except.error MErr.EXECUTION_ERROR)).1 =
      [PoolEvent.acquireEv (str "mongodb://h/db"),
       PoolEvent.releaseEv (str "mongodb://h/db")] :=
  execute_releases_on_every_path
    ⟨some (str "db.users.find()"), some (str "mongodb://h/db")⟩
    (Except.ok ()) (Except.error MErr.EXECUTION_ERROR)
    (str "db.users.find()") (str "mongodb://h/db")
    rfl (by decide) rfl (by decide)

/-- C10: a non-array payload over the byte ceiling passes through
unmodified — the content is the unchanged serialization — yet the
metadata reports wasTruncated true: the flag follows the size check
alone, not whether elements were removed. -/
theorem handleResponse_nonarray_flag (cfg : ResponseSizeConfig) (v : JVal)
    (mro : Option Nat) (hna : isArr v = false)
    (hsz : cfg.maxSizeBytes < utf8Len (stringify2 v)) :
    handleResponse cfg v mro =
      { content := stringify2 v,
        metadata :=
          { originalSize := utf8Len (stringify2 v),
            finalSize := utf16Len (stringify2 v),
            wasTruncated := true,
            documentsShown := none,
            totalDocuments := none } } := by
  have htr : truncateData v (effectiveMax cfg mro) = v := by
    cases v <;> simp_all [truncateData, isArr]
  simp [handleResponse, hsz, htr, hna]

/-- Witness for C10 at a concrete oversized scalar payload. -/
theorem handleResponse_nonarray_flag_witness :
    handleResponse ⟨3, 2, 1⟩ (JVal.jstr (str "abcdef")) none =
      { content := str "\"abcdef\"",
        metadata :=
          { originalSize := 8, finalSize := 8, wasTruncated := true,
            documentsShown := none, totalDocuments := none } } := by
  have h := handleResponse_nonarray_flag ⟨3, 2, 1⟩ (JVal.jstr (str "abcdef"))
    none (by decide) (by decide)
  rw [h]; decide

/-- C3: an array payload whose serialization exceeds maxSizeBytes is
truncated — wasTruncated is true, the reported document count is at most
the effective item bound, and the metadata carries the original size,
the final size and the total element count before truncation; every
payload, of any shape, whose serialization is at or under the ceiling is
returned unmodified with wasTruncated false. -/
theorem handleResponse_bounds_arrays (cfg : ResponseSizeConfig)
    (xs : List JVal) (v : JVal) (mro : Option Nat) :
    (cfg.maxSizeBytes < utf8Len (stringify2 (JVal.arr xs)) →
      (handleResponse cfg (JVal.arr xs) mro).metadata.wasTruncated = true ∧
      (handleResponse cfg (JVal.arr xs) mro).content =
        stringify2 (JVal.arr (xs.take (effectiveMax cfg mro))) ∧
      (xs.take (effectiveMax cfg mro)).length ≤ effectiveMax cfg mro ∧
      (handleResponse cfg (JVal.arr xs) mro).metadata.documentsShown =
        some (xs.take (effectiveMax cfg mro)).length ∧
      (handleResponse cfg (JVal.arr xs) mro).metadata.totalDocuments =
        some xs.length ∧
      (handleResponse cfg (JVal.arr xs) mro).metadata.originalSize =
        utf8Len (stringify2 (JVal.arr xs)) ∧
      (handleResponse cfg (JVal.arr xs) mro).metadata.finalSize =
        utf16Len (stringify2 (JVal.arr (xs.take (effectiveMax cfg mro))))) ∧
    (utf8Len (stringify2 v) ≤ cfg.maxSizeBytes →
      (handleResponse cfg v mro).metadata.wasTruncated = false ∧
      (handleResponse cfg v mro).content = stringify2 v ∧
      (handleResponse cfg v mro).metadata.originalSize =
        utf8Len (stringify2 v) ∧
      (handleResponse cfg v mro).metadata.finalSize =
        utf8Len (stringify2 v)) := by
  constructor
  · intro h
    simp [handleResponse, h, truncateData, isArr, arrLen]
  · intro h
    have h2 : ¬ cfg.maxSizeBytes < utf8Len (stringify2 v) :=
      Nat.not_lt.mpr h
    simp [handleResponse, h2]

/-- Witness for C3 at a concrete oversized array and at a concrete
under-ceiling non-array payload. -/
theorem handleResponse_bounds_arrays_witness :
    (handleResponse ⟨3, 2, 1⟩ (JVal.arr [JVal.null, JVal.null]) none
        ).metadata.wasTruncated = true ∧
    (handleResponse ⟨3, 2, 1⟩ (JVal.arr [JVal.null, JVal.null]) none
        ).metadata.documentsShown = some 1 ∧
    (handleResponse ⟨3, 2, 1⟩ (JVal.arr [JVal.null, JVal.null]) none
        ).metadata.totalDocuments = some 2 ∧
    (handleResponse ⟨100, 50, 1⟩ JVal.null none).metadata.wasTruncated =
      false ∧
    (handleResponse ⟨100, 50, 1⟩ JVal.null none).content =
      stringify2 JVal.null := by
  have h := (handleResponse_bounds_arrays ⟨3, 2, 1⟩ [JVal.null, JVal.null]
    JVal.null none).1 (by decide)
  have h2 := (handleResponse_bounds_arrays ⟨100, 50, 1⟩ [JVal.null]
    JVal.null none).2 (by decide)
  exact ⟨h.1, h.2.2.2.1, h.2.2.2.2.1, h2.1, h2.2.1⟩

/-- Dropping a whitespace prefix does not change the count of a
non-whitespace character. -/
theorem count_dropWhile_ws (b : Char) (hb : isWs b = false) (l : List Char) :
    (l.dropWhile isWs).count b = l.count b := by
  conv_rhs => rw [← List.takeWhile_append_dropWhile isWs l]
  rw [List.count_append]
  have h0 : (l.takeWhile isWs).count b = 0 := by
    rw [List.count_eq_zero]
    intro hmem
    exact absurd (List.mem_takeWhile_imp hmem) (by simp [hb])
  omega

/-- Trimming does not change the count of a non-whitespace character. -/
theorem count_trimStr (b : Char) (hb : isWs b = false) (l : List Char) :
    (trimStr l).count b = l.count b := by
  unfold trimStr
  rw [List.count_reverse, count_dropWhile_ws b hb, List.count_reverse,
    count_dropWhile_ws b hb]

/-- C1 (amended): a command matching a disallowed mutating-method pattern
is rejected with WRITE_OPERATION_FORBIDDEN when allowWrites is false,
provided no earlier rule fired (the injection screening, which also owns
the brace checks, runs first and returns ok); and a rejected command
never reaches the sandbox evaluator. -/
theorem validate_rejects_writes (cmd : List Char) (aa : Bool)
    (hw : matchesWriteOp (trimStr cmd) = true)
    (hinj : checkForInjectionPatterns (trimStr cmd) = Except.ok ()) :
    validateCommand cmd false aa =
      Except.error MErr.WRITE_OPERATION_FORBIDDEN ∧
    ∀ ev, (runPipeline ev cmd false aa).2 = false := by
  have hne : trimStr cmd ≠ [] := by
    intro h; rw [h] at hw; exact absurd hw (by decide)
  have hcne : cmd ≠ [] := by
    intro h; rw [h] at hne; exact hne rfl
  have hval : validateCommand cmd false aa =
      Except.error MErr.WRITE_OPERATION_FORBIDDEN := by
    simp [validateCommand, hcne, hne, hinj, checkForWriteOperations, hw]
  exact ⟨hval, fun ev => by simp [runPipeline, hval]⟩

/-- Witness for C1 at a concrete deleteMany command. -/
theorem validate_rejects_writes_witness :
    validateCommand (str "db.users.deleteMany(\x7ba: 1\x7d)") false false =
      Except.error MErr.WRITE_OPERATION_FORBIDDEN :=
  (validate_rejects_writes (str "db.users.deleteMany(\x7ba: 1\x7d)") false
    (by decide) (by decide)).1

/-- C1 counterexample: a command that matches a mutating-method pattern
but also an injection signature is rejected with DANGEROUS_PATTERN, not
with the WRITE_OPERATION_FORBIDDEN verdict the claim states, because the
injection screening runs before the write screening. -/
theorem validate_write_verdict_counterexample :
    matchesWriteOp (trimStr (str "db.users.deleteMany(\x7b$where: 1\x7d)")) =
      true ∧
    validateCommand (str "db.users.deleteMany(\x7b$where: 1\x7d)") false false ≠
      Except.error MErr.WRITE_OPERATION_FORBIDDEN ∧
    validateCommand (str "db.users.deleteMany(\x7b$where: 1\x7d)") false false =
      Except.error MErr.DANGEROUS_PATTERN := by decide

/-- C4 (amended): a command with unbalanced braces is rejected with
MALFORMED_COMMAND — for any allowWrites and allowAdmin flags, so the
dangerous-operation and admin-operation rules can never fire first —
provided no injection signature matches, since within the injection
screening the signature loop runs before the brace balance check. -/
theorem unbalanced_braces_malformed (cmd : List Char) (aw aa : Bool)
    (hb : cmd.count '\x7b' ≠ cmd.count '\x7d')
    (hinj : anyInjection (trimStr cmd) = false) :
    validateCommand cmd aw aa = Except.error MErr.MALFORMED_COMMAND := by
  have e1 : (trimStr cmd).count '\x7b' = cmd.count '\x7b' :=
    count_trimStr _ (by decide) _
  have e2 : (trimStr cmd).count '\x7d' = cmd.count '\x7d' :=
    count_trimStr _ (by decide) _
  have hb2 : (trimStr cmd).count '\x7b' ≠ (trimStr cmd).count '\x7d' := by
    rw [e1, e2]; exact hb
  have hcne : cmd ≠ [] := by
    intro h; rw [h] at hb; exact hb rfl
  have hne : trimStr cmd ≠ [] := by
    intro h; rw [h] at hb2; exact hb2 rfl
  simp [validateCommand, hcne, hne, checkForInjectionPatterns, hinj, hb2]

/-- Witness for C4 at a concrete unbalanced command. -/
theorem unbalanced_braces_malformed_witness :
    validateCommand (str "db.a.find(\x7b") false false =
      Except.error MErr.MALFORMED_COMMAND :=
  unbalanced_braces_malformed (str "db.a.find(\x7b") false false
    (by decide) (by decide)

/-- C4 counterexample: an unbalanced command that also contains an
injection signature is rejected with DANGEROUS_PATTERN — the injection
signature fires before the brace balance check, so MalformedSyntax is not
returned regardless of other content as the claim states. -/
theorem unbalanced_braces_counterexample :
    (str "db.a.find(\x7bconstructor").count '\x7b' ≠
      (str "db.a.find(\x7bconstructor").count '\x7d' ∧
    validateCommand (str "db.a.find(\x7bconstructor") false false ≠
      Except.error MErr.MALFORMED_COMMAND ∧
    validateCommand (str "db.a.find(\x7bconstructor") false false =
      Except.error MErr.DANGEROUS_PATTERN := by decide

/-- C7 (amended): materialization wrapping in the normalizer is applied
exactly when the chain contains a cursor call token, no existing
toArray call, and none of forEach, map, or a literal explain() with
empty parentheses; a count call does not preclude wrapping. -/
theorem materialization_wrap_exactly_when (cmd : List Char) (n : Nat)
    (ub : Bool) (e : List Char)
    (he : e = if ub then ensureDbDot (trimStr cmd)
          else injectLimitIfNeeded (ensureDbDot (trimStr cmd)) n) :
    ((containsSub (str "find(") e || containsSub (str "aggregate(") e ||
      containsSub (str ".find(") e || containsSub (str ".aggregate(") e) = true →
     containsSub (str ".toArray()") e = false →
     containsSub (str ".forEach(") e = false →
     containsSub (str ".map(") e = false →
     containsSub (str ".explain()") e = false →
     normalizeCommand cmd n ub = wrapToArray e) ∧
    (containsSub (str ".toArray()") e = true →
     normalizeCommand cmd n ub = e) ∧
    ((containsSub (str ".forEach(") e || containsSub (str ".map(") e ||
      containsSub (str ".explain()") e) = true →
     normalizeCommand cmd n ub = e) ∧
    ((containsSub (str "find(") e || containsSub (str "aggregate(") e ||
      containsSub (str ".find(") e || containsSub (str ".aggregate(") e) = false →
     normalizeCommand cmd n ub = e) := by
  have hn : normalizeCommand cmd n ub =
      if needsToArrayConversion e = true then wrapToArray e else e := by
    rw [he]; rfl
  refine ⟨?_, ?_, ?_, ?_⟩
  · intro hA hB h1 h2 h3
    have hneed : needsToArrayConversion e = true := by
      unfold needsToArrayConversion
      rw [hA, hB, h1, h2, h3]
      rfl
    rw [hn, if_pos hneed]
  · intro hB
    have hneed : needsToArrayConversion e = false := by
      simp [needsToArrayConversion, hB]
    rw [hn, if_neg (by rw [hneed]; exact Bool.false_ne_true)]
  · intro hC
    have hneed : needsToArrayConversion e = false := by
      simp only [needsToArrayConversion]
      rw [hC]
      simp
    rw [hn, if_neg (by rw [hneed]; exact Bool.false_ne_true)]
  · intro hA
    have hneed : needsToArrayConversion e = false := by
      simp [needsToArrayConversion, hA]
    rw [hn, if_neg (by rw [hneed]; exact Bool.false_ne_true)]

/-- Witness for C7 at a bare cursor command: after limit injection the
chain is wrapped so its result is a concrete sequence. -/
theorem materialization_wrap_exactly_when_witness :
    normalizeCommand (str "db.u.find(\x7b\x7d)") 5 false =
      str "(db.u.find(\x7b\x7d).limit(5)).toArray()" := by
  have h := (materialization_wrap_exactly_when (str "db.u.find(\x7b\x7d)") 5
    false (injectLimitIfNeeded (ensureDbDot (trimStr (str "db.u.find(\x7b\x7d)"))) 5)
    (by simp)).1 (by decide) (by decide) (by decide) (by decide) (by decide)
  rw [h]
  decide

/-- C7 counterexample: a command ending in the terminal consumer count is
wrapped anyway, because needsToArrayConversion does not exclude count —
the normalized text becomes open find count close .toArray(). -/
theorem count_command_wrapped_counterexample :
    containsSub (str ".count(") (str "db.users.find(\x7b\x7d).count()") = true ∧
    needsToArrayConversion (str "db.users.find(\x7b\x7d).count()") = true ∧
    normalizeCommand (str "db.users.find(\x7b\x7d).count()") 100 false =
      str "(db.users.find(\x7b\x7d).count()).toArray()" := by decide

/-- The element produced by the least-recently-used fold satisfies any
predicate holding on the accumulator and every list element. -/
theorem foldl_lruStep_pred (P : PooledHandle → Prop) :
    ∀ (l : List PooledHandle) (acc : Option PooledHandle),
      (∀ x, acc = some x → P x) → (∀ x ∈ l, P x) →
      ∀ v, l.foldl lruStep acc = some v → P v := by
  intro l
  induction l with
  | nil => intro acc hacc _ v hv; exact hacc v hv
  | cons g l2 ih =>
    intro acc hacc hmem v hv
    refine ih (lruStep acc g) ?_ (fun x hx => hmem x (List.mem_cons_of_mem g hx))
      v hv
    intro x hx
    cases acc with
    | none =>
      simp only [lruStep] at hx
      injection hx with hx2
      rw [← hx2]
      exact hmem g (List.mem_cons_self g l2)
    | some m =>
      simp only [lruStep] at hx
      by_cases hlt : g.lastUsedAt < m.lastUsedAt
      · rw [if_pos hlt] at hx
        injection hx with hx2
        rw [← hx2]
        exact hmem g (List.mem_cons_self g l2)
      · rw [if_neg hlt] at hx
        injection hx with hx2
        rw [← hx2]
        exact hacc m rfl

/-- The least-recently-used victim is an idle handle. -/
theorem lruIdle_not_inUse (hs : List PooledHandle) (v : PooledHandle)
    (h : lruIdle hs = some v) : v.inUse = false := by
  refine foldl_lruStep_pred (fun g => g.inUse = false)
    (hs.filter (fun g => !g.inUse)) none (by intro x hx; cases hx) ?_ v h
  intro x hx
  have := List.of_mem_filter hx
  simpa using this

/-- Releasing the leased client and acquiring again finds an idle handle
with the same client id, when the first acquire found an idle handle with
that client id. -/
theorem find_cycle_preserves (t : List Char) (now2 : Nat) (c : Nat) :
    ∀ (l : List PooledHandle) (h : PooledHandle),
      l.find? (idleFor t) = some h → h.clientId = c →
      ∃ h2, (l.map (releaseFn c now2)).find? (idleFor t) = some h2 ∧
        h2.clientId = c := by
  intro l
  induction l with
  | nil => intro h hf _; simp at hf
  | cons g l2 ih =>
    intro h hf hc
    by_cases hPg : idleFor t g = true
    · rw [List.find?_cons_of_pos _ hPg] at hf
      injection hf with hf2
      rw [← hf2] at hc
      have hgt : g.target = t := by
        simp only [idleFor, Bool.and_eq_true, decide_eq_true_eq] at hPg
        exact hPg.1
      refine ⟨{ g with inUse := false, lastUsedAt := now2 }, ?_, by simp [hc]⟩
      rw [List.map_cons]
      rw [show releaseFn c now2 g =
        { g with inUse := false, lastUsedAt := now2 } from by
          simp [releaseFn, hc]]
      exact List.find?_cons_of_pos _ (by simp [idleFor, hgt])
    · rw [List.find?_cons_of_neg _ hPg] at hf
      by_cases hgc : g.clientId = c
      · by_cases hgt : g.target = t
        · refine ⟨{ g with inUse := false, lastUsedAt := now2 }, ?_, by simp [hgc]⟩
          rw [List.map_cons]
          rw [show releaseFn c now2 g =
            { g with inUse := false, lastUsedAt := now2 } from by
              simp [releaseFn, hgc]]
          exact List.find?_cons_of_pos _ (by simp [idleFor, hgt])
        · obtain ⟨h2, hh2, hc2⟩ := ih h hf hc
          refine ⟨h2, ?_, hc2⟩
          rw [List.map_cons]
          rw [show releaseFn c now2 g =
            { g with inUse := false, lastUsedAt := now2 } from by
              simp [releaseFn, hgc]]
          rw [List.find?_cons_of_neg _ (by simp [idleFor, hgt])]
          exact hh2
      · obtain ⟨h2, hh2, hc2⟩ := ih h hf hc
        refine ⟨h2, ?_, hc2⟩
        rw [List.map_cons]
        rw [show releaseFn c now2 g = g from by simp [releaseFn, hgc]]
        rw [List.find?_cons_of_neg _ hPg]
        exact hh2

/-- Releasing the fresh client id in a pool with no idle handle for the
target and a handle carrying that id and target yields exactly such an
idle handle for the next acquire. -/
theorem find_fresh (t : List Char) (now2 : Nat) (c : Nat)
    (l : List PooledHandle)
    (hall : ∀ x ∈ l, idleFor t x = false)
    (hex : ∃ g ∈ l, g.clientId = c ∧ g.target = t) :
    ∃ h2, (l.map (releaseFn c now2)).find? (idleFor t) = some h2 ∧
      h2.clientId = c := by
  obtain ⟨g, hgmem, hgc, hgt⟩ := hex
  have hmem2 : releaseFn c now2 g ∈ l.map (releaseFn c now2) :=
    List.mem_map_of_mem _ hgmem
  have hPg : idleFor t (releaseFn c now2 g) = true := by
    simp [releaseFn, hgc, idleFor, hgt]
  cases hf2 : (l.map (releaseFn c now2)).find? (idleFor t) with
  | none =>
    exfalso
    have := List.find?_eq_none.mp hf2 _ hmem2
    rw [hPg] at this
    exact this rfl
  | some h2 =>
    have hP2 : idleFor t h2 = true := List.find?_some hf2
    obtain ⟨g0, hg0, hg0eq⟩ := List.mem_map.mp (List.mem_of_find?_eq_some hf2)
    by_cases hg0c : g0.clientId = c
    · refine ⟨h2, rfl, ?_⟩
      rw [← hg0eq]
      simp [releaseFn, hg0c]
    · exfalso
      rw [← hg0eq, show releaseFn c now2 g0 = g0 from by
        simp [releaseFn, hg0c]] at hP2
      rw [hall g0 hg0] at hP2
      exact Bool.false_ne_true hP2

/-- Acquire in a pool holding an idle handle for the target: the reuse
branch. -/
theorem acquire_found (st : PoolState) (t : List Char) (now maxSize : Nat)
    (h : PooledHandle) (hf : st.handles.find? (idleFor t) = some h) :
    acquire st t now maxSize =
      ({ st with handles := markUsed st.handles h.clientId now },
        some h.clientId, []) := by
  unfold acquire
  rw [hf]

/-- C5: two sequential acquire then release cycles for the same target
reuse the same underlying client (the second acquire hands out the same
client id, performs no second connection establishment and closes
nothing), and neither acquire (including its eviction path) nor the
periodic idle sweep ever closes a handle whose inUse flag is set — every
handle closed by those operations is idle. -/
theorem pool_reuse_and_idle_only_close (st0 : PoolState) (t : List Char)
    (now1 now2 now3 maxSize timeout swNow : Nat) :
    (∀ c, (acquire st0 t now1 maxSize).2.1 = some c →
      (acquire (release (acquire st0 t now1 maxSize).1 c now2) t now3
          maxSize).2.1 = some c ∧
      (acquire (release (acquire st0 t now1 maxSize).1 c now2) t now3
          maxSize).1.established = (acquire st0 t now1 maxSize).1.established ∧
      (acquire (release (acquire st0 t now1 maxSize).1 c now2) t now3
          maxSize).2.2 = []) ∧
    (∀ g ∈ (acquire st0 t now1 maxSize).2.2, g.inUse = false) ∧
    (∀ g ∈ (sweepPool st0 swNow timeout).2, g.inUse = false) := by
  refine ⟨?_, ?_, ?_⟩
  · intro c hcq
    obtain ⟨h2, hfind2, hcid⟩ : ∃ h2,
        (release (acquire st0 t now1 maxSize).1 c now2).handles.find?
          (idleFor t) = some h2 ∧ h2.clientId = c := by
      cases hfind : st0.handles.find? (idleFor t) with
      | some h =>
        have hres : (acquire st0 t now1 maxSize).2.1 = some h.clientId := by
          simp [acquire, hfind]
        have hfst : (acquire st0 t now1 maxSize).1.handles =
            markUsed st0.handles h.clientId now1 := by
          simp [acquire, hfind]
        rw [hres] at hcq
        injection hcq with hcq2
        have hmap : (release (acquire st0 t now1 maxSize).1 c now2).handles =
            st0.handles.map (releaseFn c now2) := by
          simp only [release, hfst, markUsed, List.map_map]
          apply List.map_congr_left
          intro g hg
          by_cases hgc : g.clientId = c
          · simp [releaseFn, Function.comp, hgc, hcq2]
          · simp [releaseFn, Function.comp, hgc, hcq2]
        rw [hmap]
        exact find_cycle_preserves t now2 c st0.handles h hfind hcq2
      | none =>
        by_cases hlen : st0.handles.length < maxSize
        · have hres : (acquire st0 t now1 maxSize).2.1 =
              some st0.nextClientId := by
            simp [acquire, hfind, hlen]
          have hfst : (acquire st0 t now1 maxSize).1.handles =
              st0.handles ++ [⟨t, st0.nextClientId, now1, true⟩] := by
            simp [acquire, hfind, hlen]
          rw [hres] at hcq
          injection hcq with hcq2
          have hmap : (release (acquire st0 t now1 maxSize).1 c now2).handles =
              (st0.handles ++
                [(⟨t, st0.nextClientId, now1, true⟩ : PooledHandle)]).map
                (releaseFn c now2) := by
            simp [release, hfst]
          rw [hmap]
          apply find_fresh t now2 c
          · intro x hx
            rcases List.mem_append.mp hx with hx1 | hx2
            · have := List.find?_eq_none.mp hfind x hx1
              cases hP : idleFor t x with
              | false => rfl
              | true => exact absurd hP this
            · rcases List.mem_singleton.mp hx2 with rfl
              simp [idleFor]
          · exact ⟨(⟨t, st0.nextClientId, now1, true⟩ : PooledHandle),
              List.mem_append_right _ (List.mem_singleton.mpr rfl),
              hcq2, rfl⟩
        · cases hlru : lruIdle st0.handles with
          | some v =>
            have hres : (acquire st0 t now1 maxSize).2.1 =
                some st0.nextClientId := by
              simp [acquire, hfind, hlen, hlru]
            have hfst : (acquire st0 t now1 maxSize).1.handles =
                removeHandle st0.handles v.clientId ++
                  [⟨t, st0.nextClientId, now1, true⟩] := by
              simp [acquire, hfind, hlen, hlru]
            rw [hres] at hcq
            injection hcq with hcq2
            have hmap : (release (acquire st0 t now1 maxSize).1 c
                now2).handles =
                (removeHandle st0.handles v.clientId ++
                  [(⟨t, st0.nextClientId, now1, true⟩ : PooledHandle)]).map
                  (releaseFn c now2) := by
              simp [release, hfst]
            rw [hmap]
            apply find_fresh t now2 c
            · intro x hx
              rcases List.mem_append.mp hx with hx1 | hx2
              · have hx0 : x ∈ st0.handles :=
                  (List.eraseP_sublist st0.handles).subset hx1
                have := List.find?_eq_none.mp hfind x hx0
                cases hP : idleFor t x with
                | false => rfl
                | true => exact absurd hP this
              · rcases List.mem_singleton.mp hx2 with rfl
                simp [idleFor]
            · exact ⟨(⟨t, st0.nextClientId, now1, true⟩ : PooledHandle),
                List.mem_append_right _ (List.mem_singleton.mpr rfl),
                hcq2, rfl⟩
          | none =>
            have hres : (acquire st0 t now1 maxSize).2.1 = none := by
              simp [acquire, hfind, hlen, hlru]
            rw [hres] at hcq
            cases hcq
    refine ⟨?_, ?_, ?_⟩
    · rw [acquire_found _ t now3 maxSize h2 hfind2]
      simp [hcid]
    · rw [acquire_found _ t now3 maxSize h2 hfind2]
      simp [release]
    · rw [acquire_found _ t now3 maxSize h2 hfind2]
  · intro g hg
    cases hfind : st0.handles.find? (idleFor t) with
    | some h =>
      rw [show (acquire st0 t now1 maxSize).2.2 = [] from by
        simp [acquire, hfind]] at hg
      cases hg
    | none =>
      by_cases hlen : st0.handles.length < maxSize
      · rw [show (acquire st0 t now1 maxSize).2.2 = [] from by
          simp [acquire, hfind, hlen]] at hg
        cases hg
      · cases hlru : lruIdle st0.handles with
        | some v =>
          rw [show (acquire st0 t now1 maxSize).2.2 = [v] from by
            simp [acquire, hfind, hlen, hlru]] at hg
          rcases List.mem_singleton.mp hg with rfl
          exact lruIdle_not_inUse st0.handles g hlru
        | none =>
          rw [show (acquire st0 t now1 maxSize).2.2 = [] from by
            simp [acquire, hfind, hlen, hlru]] at hg
          cases hg
  · intro g hg
    have := List.of_mem_filter hg
    simp only [Bool.and_eq_true, Bool.not_eq_true'] at this
    exact this.1

/-- Witness for C5: in an empty pool the first acquire creates client 0,
and after release the next acquire for the same target hands out client 0
again, with no new establishment and nothing closed. -/
theorem pool_reuse_and_idle_only_close_witness :
    (acquire (release (acquire ⟨[], 0, 0⟩ (str "mongodb://h/db") 1 10).1 0 2)
        (str "mongodb://h/db") 3 10).2.1 = some 0 ∧
    (acquire (release (acquire ⟨[], 0, 0⟩ (str "mongodb://h/db") 1 10).1 0 2)
        (str "mongodb://h/db") 3 10).1.established =
      (acquire ⟨[], 0, 0⟩ (str "mongodb://h/db") 1 10).1.established :=
  ⟨((pool_reuse_and_idle_only_close ⟨[], 0, 0⟩ (str "mongodb://h/db")
      1 2 3 10 300 60).1 0 (by decide)).1,
   ((pool_reuse_and_idle_only_close ⟨[], 0, 0⟩ (str "mongodb://h/db")
      1 2 3 10 300 60).1 0 (by decide)).2.1⟩

end MongoMCP
